import Mathlib

/-!
Shallow embedding of `src/main.py` of tesl-card-data-scraper.

The program has three parts:
* `clean_ability_text` — a pipeline of ten `re.sub` rewrites over the card's
  free-text ability field;
* `text_to_dict` — extracts `|key=value` lines from raw wikitext into a dict,
  strips HTML tag spans from values, inserts the card name (the page name with
  all occurrences of "Legends:" removed), defaults `availability` to "Core",
  cleans the ability text, and projects onto the recognized field lists;
* `fetch_card_data` — compares the set of `name`s in the persisted CSV with the
  set of page names in the wiki category and, on mismatch, refetches every page
  and rebuilds the table.

Each `re.sub`/`re.findall` call is embedded as a dedicated left-to-right
scanner over `List Char` that mirrors the Python regex engine's behaviour on
the given pattern: leftmost match wins, the scan resumes right after the end
of a match, greedy pieces (`\s*`, `\w+`, `[^}]+`) take the maximal run
(backtracking cannot help for these patterns because each run is delimited by
a character the run's class excludes), and lazy pieces (`.*?`) stop at the
first terminator. Character classes are modelled at their ASCII meaning
(`\w` = letters, digits, underscore; `\s` = space, tab, newline, carriage
return, vertical tab, form feed), which agrees with Python on the ASCII
inputs this development evaluates. The fuel argument of each scanner is the
input length; every successful match consumes at least one character, so the
fuel never runs out (made precise by the fuel-stability lemmas below).
-/

/-- Python's `\s` on ASCII text: space, tab, newline, carriage return,
vertical tab, form feed. -/
def isSpc (c : Char) : Bool :=
  c == ' ' || c == '\t' || c == '\n' || c == '\r' ||
  c == Char.ofNat 11 || c == Char.ofNat 12

/-- Python's `\w` on ASCII text: letters, digits and the underscore. -/
def isWordChar (c : Char) : Bool :=
  c.isAlpha || c.isDigit || c == '_'

/-- A single-rule match attempt: given the head character and the tail of the
remaining input, either no match starts here, or the match succeeds with a
replacement text and the input that remains after the matched span. A matcher
always consumes at least the head character. -/
abbrev Matcher := Char → List Char → Option (List Char × List Char)

/-- Driver for `re.sub`: scan left to right; where the matcher succeeds, emit
the replacement and resume after the match, otherwise emit the character and
advance by one. Fuel bounds the number of steps; `subst` supplies the input
length, which suffices because a match consumes at least one character. -/
def substAux (m : Matcher) : Nat → List Char → List Char
  | _, [] => []
  | 0, l => l
  | n + 1, c :: cs =>
    match m c cs with
    | some (out, rest) => out ++ substAux m n rest
    | none => c :: substAux m n cs

def subst (m : Matcher) (l : List Char) : List Char :=
  substAux m l.length l

/-- A matcher whose leftover input never exceeds the tail it was given; every
matcher in this file satisfies this. -/
def GoodM (m : Matcher) : Prop :=
  ∀ c cs out rest, m c cs = some (out, rest) → rest.length ≤ cs.length

/-- Rule 1, `re.sub(r"'''", "", _)`: remove triple-apostrophe markup. -/
def mTriple : Matcher
  | '\'', '\'' :: '\'' :: rest => some ([], rest)
  | _, _ => none

/-- Rule 2, `re.sub(r"~", "", _)`: remove tildes. -/
def mTilde : Matcher
  | '~', cs => some ([], cs)
  | _, _ => none

/-- Rule 3, `re.sub(r"&#32;", "", _)`: remove the numeric space entity. -/
def mAmp32 : Matcher
  | '&', '#' :: '3' :: '2' :: ';' :: rest => some ([], rest)
  | _, _ => none

/-- Rule 4, `re.sub(r"\.\s*\.\s*\.\s*", "", _)`: three periods, each followed
by a maximal (greedy) run of whitespace — including the run after the third
period — are deleted. -/
def mEll : Matcher := fun c cs =>
  if c = '.' then
    match cs.dropWhile isSpc with
    | '.' :: cs2 =>
      match cs2.dropWhile isSpc with
      | '.' :: cs4 => some ([], cs4.dropWhile isSpc)
      | _ => none
    | _ => none
  else none

/-- Rule 5, `re.sub(r"{{LG Attribute Icon\|([^}]+)}}", r"\1", _)`: unwrap the
attribute-icon template to its argument. -/
def mIcon : Matcher := fun c cs =>
  if c = '{' then
    if ("\x7bLG Attribute Icon|".data).isPrefixOf cs then
      let rest0 := cs.drop ("\x7bLG Attribute Icon|".data).length
      let cap := rest0.takeWhile (fun d => !(d == '}'))
      match rest0.drop cap.length with
      | '}' :: '}' :: r => if cap = [] then none else some (cap, r)
      | _ => none
    else none
  else none

/-- Rule 6, `re.sub(r"\[\[(?:Legends|LG):[^|]*\|([^]]+)]]", r"\1", _)`: replace
a wiki link by its display text. -/
def mLink : Matcher := fun c cs =>
  if c = '[' then
    match cs with
    | '[' :: r0 =>
      let r1opt :=
        if ("Legends:".data).isPrefixOf r0 then some (r0.drop 8)
        else if ("LG:".data).isPrefixOf r0 then some (r0.drop 3)
        else none
      match r1opt with
      | some r1 =>
        match r1.drop (r1.takeWhile (fun d => !(d == '|'))).length with
        | '|' :: r3 =>
          let cap := r3.takeWhile (fun d => !(d == ']'))
          match r3.drop cap.length with
          | ']' :: ']' :: r5 => if cap = [] then none else some (cap, r5)
          | _ => none
        | _ => none
      | none => none
    | _ => none
  else none

/-- Greedy backtracking search for `(\b\w+)\1` at the current position: try
group lengths from the longest word run down to 1 and take the first length
whose text is immediately repeated. -/
def findRep (full : List Char) : Nat → Option Nat
  | 0 => none
  | l + 1 =>
    if (full.take (l + 1)).isPrefixOf (full.drop (l + 1)) then some (l + 1)
    else findRep full l

/-- Rule 7, `re.sub(r"(\b\w+)\1", r"\1", _)`: collapse an immediately repeated
word. The `\b` makes a match possible only where the previous character is not
a word character, so the driver threads that bit along. -/
def collapseRepAux : Nat → Bool → List Char → List Char
  | _, _, [] => []
  | 0, _, l => l
  | n + 1, prevW, c :: cs =>
    if !prevW && isWordChar c then
      let full := c :: cs
      match findRep full (full.takeWhile isWordChar).length with
      | some l => full.take l ++ collapseRepAux n true (full.drop (2 * l))
      | none => c :: collapseRepAux n (isWordChar c) cs
    else c :: collapseRepAux n (isWordChar c) cs

def collapseRepeat (l : List Char) : List Char :=
  collapseRepAux l.length false l

/-- Rule 8, `re.sub(r"([a-z0-9])([A-Z])", r"\1 \2", _)`: insert a space between
a lowercase letter or digit and an uppercase letter. -/
def mCamel : Matcher := fun c cs =>
  if c.isLower || c.isDigit then
    match cs with
    | d :: rest => if d.isUpper then some ([c, ' ', d], rest) else none
    | [] => none
  else none

/-- Rule 9, `re.sub(r"([.,;:])(?=\S)", r"\1 ", _)`: a space after punctuation
when a non-space follows; the lookahead consumes nothing. -/
def mPunct : Matcher := fun c cs =>
  if c = '.' || c = ',' || c = ';' || c = ':' then
    match cs with
    | d :: _ => if !isSpc d then some ([c, ' '], cs) else none
    | [] => none
  else none

/-- Rule 10, `re.sub(r"{{New ?Left}}", " ", _)`: drop the layout directive,
leaving a single space. -/
def mNewLeft : Matcher := fun c cs =>
  if c = '{' then
    if ("\x7bNew Left\x7d\x7d".data).isPrefixOf cs then
      some ([' '], cs.drop ("\x7bNew Left\x7d\x7d".data).length)
    else if ("\x7bNewLeft\x7d\x7d".data).isPrefixOf cs then
      some ([' '], cs.drop ("\x7bNewLeft\x7d\x7d".data).length)
    else none
  else none

def removeTriple (l : List Char) : List Char := subst mTriple l

def removeTilde (l : List Char) : List Char := subst mTilde l

def removeAmp32 (l : List Char) : List Char := subst mAmp32 l

def removeEllipsis (l : List Char) : List Char := subst mEll l

def unwrapAttrIcon (l : List Char) : List Char := subst mIcon l

def unwrapWikiLink (l : List Char) : List Char := subst mLink l

def camelSpace (l : List Char) : List Char := subst mCamel l

def punctSpace (l : List Char) : List Char := subst mPunct l

def removeNewLeft (l : List Char) : List Char := subst mNewLeft l

/-- The ten rewrites of `clean_ability_text`, applied in the source's order. -/
def cleanAbilityL (l : List Char) : List Char :=
  removeNewLeft (punctSpace (camelSpace (collapseRepeat (unwrapWikiLink
    (unwrapAttrIcon (removeEllipsis (removeAmp32 (removeTilde
      (removeTriple l)))))))))

def clean_ability_text (s : String) : String :=
  ⟨cleanAbilityL s.data⟩

/-- `page_name.replace("Legends:", "")`: remove every occurrence of
"Legends:", scanning left to right. -/
def stripLegends : List Char → List Char
  | 'L' :: 'e' :: 'g' :: 'e' :: 'n' :: 'd' :: 's' :: ':' :: rest =>
      stripLegends rest
  | c :: rest => c :: stripLegends rest
  | [] => []

def strip_name (p : String) : String :=
  ⟨stripLegends p.data⟩

/-- Count of non-overlapping occurrences of a pattern, scanning left to
right (used to state how often a word appears in a cleaner's output). -/
def countOccAux (pat : List Char) : Nat → List Char → Nat
  | _, [] => 0
  | 0, _ => 0
  | n + 1, c :: cs =>
    if pat.isPrefixOf (c :: cs) then
      1 + countOccAux pat n ((c :: cs).drop pat.length)
    else countOccAux pat n cs

def countOcc (pat l : List Char) : Nat :=
  countOccAux pat l.length l

/-- One attempt of `re.findall(r"\|(\w+)=(.*?)\n", _)` at a position whose
`|` has just been consumed: a maximal nonempty run of word characters, `=`,
then the lazy `(.*?)` stops at the first newline, which the pattern itself
consumes. Without a terminating newline there is no match. -/
def matchKV (cs : List Char) : Option (String × String × List Char) :=
  let key := cs.takeWhile isWordChar
  let rest0 := cs.dropWhile isWordChar
  if key = [] then none
  else if rest0.take 1 = ['='] then
    let after := rest0.drop 1
    let v := after.takeWhile (fun d => !(d == '\n'))
    let nl := after.dropWhile (fun d => !(d == '\n'))
    if nl.take 1 = ['\n'] then some (⟨key⟩, ⟨v⟩, nl.drop 1) else none
  else none

/-- Driver for `re.findall`: scan left to right, collect each match's groups,
resume after the match (the consumed newline included). -/
def findKVAux : Nat → List Char → List (String × String)
  | _, [] => []
  | 0, _ => []
  | n + 1, c :: cs =>
    if c = '|' then
      match matchKV cs with
      | some (k, v, rest) => (k, v) :: findKVAux n rest
      | none => findKVAux n cs
    else findKVAux n cs

def findKV (l : List Char) : List (String × String) :=
  findKVAux l.length l

/-- `re.sub(r"<.*?>", "", value)`: a span from `<` to the first following `>`
(`.` does not cross a newline) is deleted. -/
def mTag : Matcher := fun c cs =>
  if c = '<' then
    let mid := cs.takeWhile (fun d => !(d == '>') && !(d == '\n'))
    match cs.drop mid.length with
    | '>' :: rest => some ([], rest)
    | _ => none
  else none

def stripHTML (s : String) : String :=
  ⟨subst mTag s.data⟩

/-- The `(key, value)` pairs of `re.findall(r"\|(\w+)=(.*?)\n", page_contents)`
in document order, each value with its HTML tag spans removed. -/
def rawPairs (t : String) : List (String × String) :=
  (findKV t.data).map (fun p => (p.1, stripHTML p.2))

/-- A Python dict of strings, as an association list in insertion order with
unique keys. -/
abbrev Dict := List (String × String)

/-- `d[k] = v`: overwrite in place when the key is present (Python keeps the
original position), append otherwise. -/
def dinsert (d : Dict) (k v : String) : Dict :=
  if d.any (fun p => p.1 == k) then
    d.map (fun p => if p.1 == k then (k, v) else p)
  else d ++ [(k, v)]

/-- `d.get(k)`: the value at the key, if present (keys are unique in a dict,
so the first binding is the binding). -/
def dget? : Dict → String → Option String
  | [], _ => none
  | p :: d, k => if p.1 == k then some p.2 else dget? d k

/-- The dict `{key: value for key, value in pairs}`: later occurrences of a
key overwrite earlier ones. -/
def dictOf (ps : List (String × String)) : Dict :=
  ps.foldl (fun d p => dinsert d p.1 p.2) []

/-- The `details` list of recognized card fields (source order). -/
def details : List String :=
  ["name", "availability", "deckcode", "type", "subtype", "attribute",
   "class", "ability", "cost", "rarity", "image"]

/-- The `keywords` list of recognized keyword abilities (source order). -/
def keywords : List String :=
  ["activate", "asilence", "assemble", "banish", "battle", "beast form",
   "betray", "breakthrough", "change", "charge", "consume", "copy", "cover",
   "drain", "empower", "equip", "exalt", "expertise", "guard", "heal",
   "indestructible", "invade", "last gasp", "lethal", "mobilize", "move",
   "pilfer", "plot", "prophecy", "rally", "regenerate", "sacrifice",
   "shackle", "shout", "silence", "slay", "steal", "summon", "transform",
   "treasure hunt", "uniqueability", "unsummon", "veteran", "ward",
   "wax and wane", "wounded"]

/-- The dict built by `text_to_dict` before the final projection: the scanned
attribute pairs, then `data["name"] = page_name.replace("Legends:", "")`, the
`availability` default, and the ability cleanup. -/
def cardData (page_name page_contents : String) : Dict :=
  let d0 := dictOf (rawPairs page_contents)
  let d1 := dinsert d0 "name" (strip_name page_name)
  let d2 :=
    if (dget? d1 "availability").getD "" = "" then
      dinsert d1 "availability" "Core"
    else d1
  if (dget? d2 "ability").getD "" = "" then d2
  else dinsert d2 "ability" (clean_ability_text ((dget? d2 "ability").getD ""))

/-- `text_to_dict`: the card's dict, projected onto the recognized fields in
their fixed order (`{key: data[key] for key in details + keywords if key in
data}`). -/
def text_to_dict (page_name page_contents : String) : Dict :=
  (details ++ keywords).filterMap
    (fun k => (dget? (cardData page_name page_contents) k).map (fun v => (k, v)))

/-- A persisted table: one dict per card row. -/
abbrev Table := List Dict

/-- A row's `name` cell (missing cells read back as the empty string, matching
`missing_utf8_is_empty_string=True`). -/
def recordName (r : Dict) : String :=
  (dget? r "name").getD ""

def namesOfTable (tbl : Table) : List String :=
  tbl.map recordName

/-- `set(card_data.get_column(name="name", default=pl.Series("name", [""])).to_list())`:
with no persisted file the data frame is empty, the `name` column is absent,
and the default series yields the singleton set of the empty string. -/
def card_names : Option Table → Finset String
  | none => {""}
  | some tbl => (namesOfTable tbl).toFinset

/-- What one run of `fetch_card_data` does to the persisted dataset. -/
inductive FetchOutcome
  | unchanged
  | written (tbl : Table)

/-- The list comprehension
`[pl.DataFrame(text_to_dict(page.name, page.text())) for page in ...]`:
page texts are fetched in order and a failure propagates before anything is
written. -/
def buildTable {ε : Type} (pt : String → Except ε String) :
    List String → Except ε Table
  | [] => .ok []
  | p :: ps =>
    match pt p with
    | .error e => .error e
    | .ok t =>
      match buildTable pt ps with
      | .error e => .error e
      | .ok rs => .ok (text_to_dict p t :: rs)

/-- The reconciler `fetch_card_data`, over an abstract page source: `existing`
is the persisted table (`none` when the CSV file does not exist), `pagesE`
the enumeration of the category's page names (an `Except` so an enumeration
failure propagates), `pt` the per-page text fetch. On set equality of names
nothing is fetched or written; otherwise every page is fetched and the table
is rebuilt wholesale. Two abstractions: the source iterates
`site.categories[wiki_category]` once for the name set and again for the
rebuild — the model uses one enumeration for both, the runs being
synchronous; and on a rebuild with zero pages the source's `pl.concat`
raises on an empty list, so the theorems about a rebuild assume at least one
page. -/
def fetch_card_data {ε : Type} (existing : Option Table)
    (pagesE : Except ε (List String)) (pt : String → Except ε String) :
    Except ε FetchOutcome :=
  match pagesE with
  | .error e => .error e
  | .ok pages =>
    if card_names existing = pages.toFinset then .ok .unchanged
    else
      match buildTable pt pages with
      | .error e => .error e
      | .ok tbl => .ok (.written tbl)

/-! ### Driver lemmas -/

theorem length_dropWhile_le (p : Char → Bool) (l : List Char) :
    (l.dropWhile p).length ≤ l.length :=
  (List.dropWhile_sublist p).length_le

theorem substAux_fuel {m : Matcher} (hm : GoodM m) :
    ∀ n n' (l : List Char), l.length ≤ n → l.length ≤ n' →
      substAux m n l = substAux m n' l := by
  intro n
  induction n with
  | zero =>
    intro n' l hl _
    have hnil : l = [] := List.eq_nil_of_length_eq_zero (Nat.le_zero.mp hl)
    subst hnil
    cases n' <;> rfl
  | succ n ih =>
    intro n' l hl hl'
    cases l with
    | nil => cases n' <;> rfl
    | cons c cs =>
      cases n' with
      | zero => simp at hl'
      | succ n' =>
        have hcs : cs.length ≤ n := by simp at hl; omega
        have hcs' : cs.length ≤ n' := by simp at hl'; omega
        cases h : m c cs with
        | none =>
          simp only [substAux, h]
          exact congrArg (c :: ·) (ih n' cs hcs hcs')
        | some pr =>
          obtain ⟨out, rest⟩ := pr
          have hr := hm c cs out rest h
          simp only [substAux, h]
          exact congrArg (out ++ ·) (ih n' rest (le_trans hr hcs) (le_trans hr hcs'))

theorem subst_nil (m : Matcher) : subst m [] = [] := rfl

theorem subst_cons_of_none {m : Matcher} {c : Char} {cs : List Char}
    (h : m c cs = none) : subst m (c :: cs) = c :: subst m cs := by
  simp only [subst, List.length_cons, substAux, h]

theorem subst_cons_of_some {m : Matcher} (hm : GoodM m) {c : Char}
    {cs out rest : List Char} (h : m c cs = some (out, rest)) :
    subst m (c :: cs) = out ++ subst m rest := by
  simp only [subst, List.length_cons, substAux, h]
  exact congrArg (out ++ ·) (substAux_fuel hm cs.length rest.length rest (hm _ _ _ _ h) le_rfl)

theorem goodM_mEll : GoodM mEll := by
  intro c cs out rest h
  unfold mEll at h
  split at h
  · split at h
    · split at h
      · rename_i hc x1 cs2 h1 x2 cs4 h2
        simp only [Option.some.injEq, Prod.mk.injEq] at h
        obtain ⟨-, h4⟩ := h
        subst h4
        have e1 : (cs.dropWhile isSpc).length ≤ cs.length := length_dropWhile_le _ _
        have e2 : (cs2.dropWhile isSpc).length ≤ cs2.length := length_dropWhile_le _ _
        have e3 : (cs4.dropWhile isSpc).length ≤ cs4.length := length_dropWhile_le _ _
        have l1 := congrArg List.length h1
        have l2 := congrArg List.length h2
        simp only [List.length_cons] at l1 l2
        omega
      · exact absurd h (by simp)
    · exact absurd h (by simp)
  · exact absurd h (by simp)

/-! ### Python-dict lemmas -/

theorem dget?_cons_pos {a : String × String} {d : Dict} {k : String}
    (h : (a.1 == k) = true) : dget? (a :: d) k = some a.2 := by
  simp only [dget?, h, if_true]

theorem dget?_cons_neg {a : String × String} {d : Dict} {k : String}
    (h : (a.1 == k) = false) : dget? (a :: d) k = dget? d k := by
  simp only [dget?, h, Bool.false_eq_true, if_false]

theorem dget?_map_overwrite (k v : String) (d : Dict)
    (hany : d.any (fun p => p.1 == k) = true) :
    dget? (d.map (fun p => if p.1 == k then (k, v) else p)) k = some v := by
  induction d with
  | nil => simp at hany
  | cons a d ih =>
    by_cases ha : (a.1 == k) = true
    · rw [List.map_cons, if_pos ha]
      exact dget?_cons_pos (by simp)
    · rw [List.map_cons, if_neg ha, dget?_cons_neg (by simpa using ha)]
      refine ih ?_
      simpa [List.any_cons, ha] using hany

theorem dget?_map_overwrite_ne {k' k : String} (hne : k' ≠ k) (v : String)
    (d : Dict) :
    dget? (d.map (fun p => if p.1 == k then (k, v) else p)) k' =
      dget? d k' := by
  induction d with
  | nil => rfl
  | cons a d ih =>
    by_cases h2 : (a.1 == k) = true
    · rw [List.map_cons, if_pos h2]
      have haeq : a.1 = k := by simpa using h2
      have hkk' : ((k : String) == k') = false := by
        simp only [beq_eq_false_iff_ne, ne_eq]
        exact fun hk => hne hk.symm
      have ha' : (a.1 == k') = false := by rw [haeq]; exact hkk'
      rw [dget?_cons_neg hkk', dget?_cons_neg ha', ih]
    · rw [List.map_cons, if_neg h2]
      by_cases h1 : (a.1 == k') = true
      · rw [dget?_cons_pos h1, dget?_cons_pos h1]
      · have h1' : (a.1 == k') = false := by simpa using h1
        rw [dget?_cons_neg h1', dget?_cons_neg h1', ih]

theorem dget?_append_of_any_false {k : String} {d : Dict}
    (hany : d.any (fun p => p.1 == k) = false) (d₂ : Dict) :
    dget? (d ++ d₂) k = dget? d₂ k := by
  induction d with
  | nil => rfl
  | cons a d ih =>
    simp only [List.any_cons, Bool.or_eq_false_iff] at hany
    rw [List.cons_append, dget?_cons_neg hany.1]
    exact ih hany.2

theorem dget?_append_single_ne {k' k : String} (hne : k' ≠ k) (v : String)
    (d : Dict) :
    dget? (d ++ [(k, v)]) k' = dget? d k' := by
  induction d with
  | nil =>
    have hkk : ((k : String) == k') = false := by
      simp only [beq_eq_false_iff_ne, ne_eq]
      exact fun hk => hne hk.symm
    rw [List.nil_append, dget?_cons_neg (show ((k, v).1 == k') = false from hkk)]
  | cons a d ih =>
    by_cases h1 : (a.1 == k') = true
    · rw [List.cons_append, dget?_cons_pos h1, dget?_cons_pos h1]
    · have h1' : (a.1 == k') = false := by simpa using h1
      rw [List.cons_append, dget?_cons_neg h1', dget?_cons_neg h1', ih]

theorem dget?_dinsert_self (d : Dict) (k v : String) :
    dget? (dinsert d k v) k = some v := by
  unfold dinsert
  by_cases hany : d.any (fun p => p.1 == k) = true
  · rw [if_pos hany]
    exact dget?_map_overwrite k v d hany
  · rw [if_neg hany]
    have hany' : d.any (fun p => p.1 == k) = false :=
      Bool.eq_false_iff.mpr hany
    rw [dget?_append_of_any_false hany']
    exact dget?_cons_pos (by simp)

theorem dget?_dinsert_ne {k' k : String} (hne : k' ≠ k) (d : Dict)
    (v : String) :
    dget? (dinsert d k v) k' = dget? d k' := by
  unfold dinsert
  by_cases hany : d.any (fun p => p.1 == k) = true
  · rw [if_pos hany]
    exact dget?_map_overwrite_ne hne v d
  · rw [if_neg hany]
    exact dget?_append_single_ne hne v d

theorem dget?_dictOf_last (ps : List (String × String)) (k : String) :
    dget? (dictOf ps) k =
      ((ps.filter (fun p => p.1 == k)).getLast?).map (fun p => p.2) := by
  induction ps using List.reverseRecOn with
  | nil => rfl
  | append_singleton ps a ih =>
    have hfold : dictOf (ps ++ [a]) = dinsert (dictOf ps) a.1 a.2 := by
      simp [dictOf, List.foldl_append]
    by_cases ha : a.1 = k
    · subst ha
      rw [hfold, dget?_dinsert_self]
      simp [List.filter_append, List.getLast?_concat]
    · rw [hfold, dget?_dinsert_ne (fun h => ha h.symm), ih]
      have hbeq : (a.1 == k) = false := by simpa using ha
      simp [List.filter_append, hbeq]

theorem dget?_proj (ks : List String) (d : Dict) (k : String) :
    dget? (ks.filterMap (fun x => (dget? d x).map (fun v => (x, v)))) k =
      if k ∈ ks then dget? d k else none := by
  induction ks with
  | nil => simp [dget?]
  | cons a ks ih =>
    by_cases hk : a = k
    · subst hk
      cases hda : dget? d a with
      | none =>
        simp only [List.filterMap_cons, hda, Option.map_none']
        rw [ih]
        by_cases hmem : a ∈ ks <;> simp [hmem, hda]
      | some v =>
        simp only [List.filterMap_cons, hda, Option.map_some']
        rw [dget?_cons_pos (by simp)]
        simp [hda]
    · cases hda : dget? d a with
      | none =>
        simp only [List.filterMap_cons, hda, Option.map_none']
        rw [ih]
        by_cases hmem : k ∈ ks
        · simp [hmem]
        · simp [hmem, Ne.symm hk]
      | some v =>
        simp only [List.filterMap_cons, hda, Option.map_some']
        rw [dget?_cons_neg (by simpa using hk), ih]
        by_cases hmem : k ∈ ks
        · simp [hmem]
        · simp [hmem, Ne.symm hk]

/-! ### The extractor's fields -/

theorem dget?_availStep (d : Dict) {k : String} (hk : k ≠ "availability") :
    dget? (if (dget? d "availability").getD "" = "" then
      dinsert d "availability" "Core" else d) k = dget? d k := by
  split
  · exact dget?_dinsert_ne hk d "Core"
  · rfl

theorem dget?_abilityStep (d : Dict) {k : String} (hk : k ≠ "ability") :
    dget? (if (dget? d "ability").getD "" = "" then d
      else dinsert d "ability"
        (clean_ability_text ((dget? d "ability").getD ""))) k = dget? d k := by
  split
  · rfl
  · exact dget?_dinsert_ne hk d _

theorem dget?_cardData_name (p t : String) :
    dget? (cardData p t) "name" = some (strip_name p) := by
  simp only [cardData]
  rw [dget?_abilityStep _ (by decide), dget?_availStep _ (by decide)]
  exact dget?_dinsert_self _ "name" (strip_name p)

theorem dget?_cardData_avail (p t : String) :
    dget? (cardData p t) "availability" =
      some (match dget? (dictOf (rawPairs t)) "availability" with
        | none => "Core"
        | some v => if v = "" then "Core" else v) := by
  simp only [cardData]
  rw [dget?_abilityStep _ (by decide)]
  have hname : dget? (dinsert (dictOf (rawPairs t)) "name" (strip_name p))
      "availability" = dget? (dictOf (rawPairs t)) "availability" :=
    dget?_dinsert_ne (by decide) _ _
  rw [hname]
  cases h0 : dget? (dictOf (rawPairs t)) "availability" with
  | none =>
    rw [Option.getD_none, if_pos rfl, dget?_dinsert_self]
  | some v =>
    by_cases hv : v = ""
    · subst hv
      rw [Option.getD_some, if_pos rfl, dget?_dinsert_self]
      rfl
    · rw [Option.getD_some, if_neg hv, hname, h0]
      simp [hv]

theorem dget?_text_to_dict_of_mem (p t k : String)
    (hk : k ∈ details ++ keywords) :
    dget? (text_to_dict p t) k = dget? (cardData p t) k := by
  unfold text_to_dict
  rw [dget?_proj, if_pos hk]

theorem name_text_to_dict (p t : String) :
    dget? (text_to_dict p t) "name" = some (strip_name p) := by
  rw [dget?_text_to_dict_of_mem p t "name" (by decide), dget?_cardData_name]

theorem avail_text_to_dict (p t : String) :
    dget? (text_to_dict p t) "availability" =
      some (match dget? (dictOf (rawPairs t)) "availability" with
        | none => "Core"
        | some v => if v = "" then "Core" else v) := by
  rw [dget?_text_to_dict_of_mem p t "availability" (by decide),
    dget?_cardData_avail]

/-! ### The reconciler's rebuild -/

theorem buildTable_ok {ε : Type} (pt : String → Except ε String) :
    ∀ pages : List String, (∀ p ∈ pages, ∃ t, pt p = .ok t) →
      ∃ tbl, buildTable pt pages = .ok tbl ∧
        namesOfTable tbl = pages.map strip_name := by
  intro pages
  induction pages with
  | nil => exact fun _ => ⟨[], rfl, rfl⟩
  | cons p ps ih =>
    intro h
    obtain ⟨t, ht⟩ := h p (by simp)
    obtain ⟨tbl, htbl, hn⟩ := ih (fun q hq => h q (by simp [hq]))
    refine ⟨text_to_dict p t :: tbl, ?_, ?_⟩
    · simp [buildTable, ht, htbl]
    · simp [namesOfTable, recordName, name_text_to_dict]
      simpa [namesOfTable] using hn

theorem buildTable_error {ε : Type} (pt : String → Except ε String) :
    ∀ pages : List String, (∃ p ∈ pages, ∃ e, pt p = .error e) →
      ∃ e, buildTable pt pages = .error e := by
  intro pages
  induction pages with
  | nil => rintro ⟨p, hp, -⟩; exact absurd hp (by simp)
  | cons p ps ih =>
    rintro ⟨q, hq, e, he⟩
    rcases List.mem_cons.mp hq with rfl | hq'
    · exact ⟨e, by simp [buildTable, he]⟩
    · cases hpt : pt p with
      | error e₁ => exact ⟨e₁, by simp [buildTable, hpt]⟩
      | ok t =>
        obtain ⟨e₂, hb⟩ := ih ⟨q, hq', e, he⟩
        exact ⟨e₂, by simp [buildTable, hpt, hb]⟩

/-! ### The ellipsis rule as a global rewrite -/

theorem dropWhile_append_of_all {p : Char → Bool} {l : List Char}
    (h : ∀ a ∈ l, p a = true) (r : List Char) :
    (l ++ r).dropWhile p = r.dropWhile p := by
  induction l with
  | nil => rfl
  | cons a l ih =>
    rw [List.cons_append, List.dropWhile_cons, if_pos (h a (by simp))]
    exact ih (fun x hx => h x (by simp [hx]))

theorem removeEllipsis_prefix_skip :
    ∀ s r : List Char, '.' ∉ s →
      removeEllipsis (s ++ r) = s ++ removeEllipsis r := by
  intro s
  induction s with
  | nil => intro r _; rfl
  | cons c cs ih =>
    intro r hdot
    have hc : ¬ c = '.' := by
      intro h
      exact hdot (by simp [h])
    have hnone : mEll c (cs ++ r) = none := by
      unfold mEll
      rw [if_neg hc]
    rw [List.cons_append, removeEllipsis, subst_cons_of_none hnone]
    have := ih r (fun h => hdot (by simp [h]))
    rw [removeEllipsis] at this
    rw [this, List.cons_append]

theorem removeEllipsis_match (w1 w2 t : List Char)
    (h1 : ∀ c ∈ w1, isSpc c = true) (h2 : ∀ c ∈ w2, isSpc c = true) :
    removeEllipsis ('.' :: (w1 ++ '.' :: (w2 ++ '.' :: t))) =
      removeEllipsis (t.dropWhile isSpc) := by
  have e1 : (w1 ++ '.' :: (w2 ++ '.' :: t)).dropWhile isSpc =
      '.' :: (w2 ++ '.' :: t) := by
    rw [dropWhile_append_of_all h1, List.dropWhile_cons, if_neg (by decide)]
  have e2 : (w2 ++ '.' :: t).dropWhile isSpc = '.' :: t := by
    rw [dropWhile_append_of_all h2, List.dropWhile_cons, if_neg (by decide)]
  have hm : mEll '.' (w1 ++ '.' :: (w2 ++ '.' :: t)) =
      some ([], t.dropWhile isSpc) := by
    unfold mEll
    rw [if_pos rfl, e1]
    simp [e2]
  rw [removeEllipsis, subst_cons_of_some goodM_mEll hm, List.nil_append]
  rfl

/-! ### The attribute scan ignores an unterminated final line -/

theorem takeWhile_append_of_all {p : Char → Bool} {l : List Char}
    (h : ∀ a ∈ l, p a = true) (r : List Char) :
    (l ++ r).takeWhile p = l ++ r.takeWhile p := by
  induction l with
  | nil => rfl
  | cons a l ih =>
    rw [List.cons_append, List.takeWhile_cons, if_pos (h a (by simp)),
      List.cons_append]
    exact congrArg (a :: ·) (ih (fun x hx => h x (by simp [hx])))

theorem dropWhile_head_false {p : Char → Bool} :
    ∀ {l : List Char} {b : Char} {t : List Char},
      l.dropWhile p = b :: t → p b = false := by
  intro l
  induction l with
  | nil => intro b t h; cases h
  | cons a l ih =>
    intro b t h
    rw [List.dropWhile_cons] at h
    by_cases pa : p a = true
    · rw [if_pos pa] at h
      exact ih h
    · rw [if_neg pa] at h
      injection h with h1 h2
      subst h1
      exact Bool.eq_false_iff.mpr pa

theorem takeWhile_append_stop {p : Char → Bool} :
    ∀ {l : List Char} {b : Char} {t : List Char},
      l.dropWhile p = b :: t → ∀ r : List Char,
      (l ++ r).takeWhile p = l.takeWhile p ∧
        (l ++ r).dropWhile p = b :: (t ++ r) := by
  intro l
  induction l with
  | nil => intro b t h r; cases h
  | cons a l ih =>
    intro b t h r
    rw [List.dropWhile_cons] at h
    by_cases pa : p a = true
    · rw [if_pos pa] at h
      obtain ⟨ht, hd⟩ := ih h r
      constructor
      · rw [List.cons_append, List.takeWhile_cons, if_pos pa, ht,
          List.takeWhile_cons, if_pos pa]
      · rw [List.cons_append, List.dropWhile_cons, if_pos pa, hd]
    · rw [if_neg pa] at h
      injection h with h1 h2
      subst h1
      subst h2
      constructor
      · rw [List.cons_append, List.takeWhile_cons, if_neg pa,
          List.takeWhile_cons, if_neg pa]
      · rw [List.cons_append, List.dropWhile_cons, if_neg pa]

theorem matchKV_nil : matchKV [] = none := rfl

theorem goodKV :
    ∀ (cs : List Char) (k v : String) (rest : List Char),
      matchKV cs = some (k, v, rest) → rest.length ≤ cs.length := by
  intro cs k v rest h
  simp only [matchKV] at h
  split at h
  · exact absurd h (by simp)
  · split at h
    · split at h
      · simp only [Option.some.injEq, Prod.mk.injEq] at h
        obtain ⟨-, -, h3⟩ := h
        subst h3
        have l1 := length_dropWhile_le isWordChar cs
        have l2 := List.length_drop 1 (cs.dropWhile isWordChar)
        have l3 := length_dropWhile_le (fun d => !(d == '\n'))
          ((cs.dropWhile isWordChar).drop 1)
        have l4 := List.length_drop 1
          (((cs.dropWhile isWordChar).drop 1).dropWhile (fun d => !(d == '\n')))
        omega
      · exact absurd h (by simp)
    · exact absurd h (by simp)

theorem findKVAux_fuel :
    ∀ n n' (l : List Char), l.length ≤ n → l.length ≤ n' →
      findKVAux n l = findKVAux n' l := by
  intro n
  induction n with
  | zero =>
    intro n' l hl _
    have hnil : l = [] := List.eq_nil_of_length_eq_zero (Nat.le_zero.mp hl)
    subst hnil
    cases n' <;> rfl
  | succ n ih =>
    intro n' l hl hl'
    cases l with
    | nil => cases n' <;> rfl
    | cons c cs =>
      cases n' with
      | zero => simp at hl'
      | succ n' =>
        have hcs : cs.length ≤ n := by simp at hl; omega
        have hcs' : cs.length ≤ n' := by simp at hl'; omega
        by_cases hc : c = '|'
        · subst hc
          cases h : matchKV cs with
          | none =>
            simp only [findKVAux, if_pos rfl, h]
            exact ih n' cs hcs hcs'
          | some pr =>
            obtain ⟨k, v, rest⟩ := pr
            have hr := goodKV cs k v rest h
            simp only [findKVAux, if_pos rfl, h]
            exact congrArg ((k, v) :: ·)
              (ih n' rest (le_trans hr hcs) (le_trans hr hcs'))
        · simp only [findKVAux, if_neg hc]
          exact ih n' cs hcs hcs'

theorem findKV_cons_not_bar {c : Char} {cs : List Char} (h : ¬ c = '|') :
    findKV (c :: cs) = findKV cs := by
  simp only [findKV, List.length_cons, findKVAux, if_neg h]

theorem findKV_cons_bar_none {cs : List Char} (h : matchKV cs = none) :
    findKV ('|' :: cs) = findKV cs := by
  simp only [findKV, List.length_cons, findKVAux, h]
  simp

theorem findKV_cons_bar_some {cs : List Char} {k v : String}
    {rest : List Char} (h : matchKV cs = some (k, v, rest)) :
    findKV ('|' :: cs) = (k, v) :: findKV rest := by
  have hfuel := findKVAux_fuel cs.length rest.length rest
    (goodKV cs k v rest h) le_rfl
  simp only [findKV, List.length_cons, findKVAux, h]
  simp [hfuel]

theorem matchKV_append {u : List Char} (hu : ∀ c ∈ u, ¬ c = '\n')
    (cs : List Char) :
    (matchKV (cs ++ u) = none ∧ matchKV cs = none) ∨
    ∃ k v rest, matchKV cs = some (k, v, rest) ∧
      matchKV (cs ++ u) = some (k, v, rest ++ u) := by
  cases h1 : cs.dropWhile isWordChar with
  | nil =>
    left
    have hall := List.dropWhile_eq_nil_iff.mp h1
    have hcs_none : matchKV cs = none := by
      simp only [matchKV, h1]
      by_cases hk : cs.takeWhile isWordChar = []
      · rw [if_pos hk]
      · rw [if_neg hk, if_neg (by simp)]
    refine ⟨?_, hcs_none⟩
    simp only [matchKV, dropWhile_append_of_all hall,
      takeWhile_append_of_all hall]
    by_cases hk : cs ++ u.takeWhile isWordChar = []
    · rw [if_pos hk]
    · rw [if_neg hk]
      by_cases h2 : (u.dropWhile isWordChar).take 1 = ['=']
      · rw [if_pos h2]
        have haft : ∀ c ∈ (u.dropWhile isWordChar).drop 1, ¬ c = '\n' :=
          fun c hc => hu c ((List.dropWhile_sublist _).subset
            (List.drop_subset 1 _ hc))
        have hnl : ((u.dropWhile isWordChar).drop 1).dropWhile
            (fun d => !(d == '\n')) = [] :=
          List.dropWhile_eq_nil_iff.mpr (fun d hd => by simpa using haft d hd)
        rw [hnl, if_neg (by simp)]
      · rw [if_neg h2]
  | cons b t =>
    obtain ⟨htw, hdw⟩ := takeWhile_append_stop h1 u
    by_cases hk : cs.takeWhile isWordChar = []
    · left
      constructor
      · simp only [matchKV, htw, if_pos hk]
      · simp only [matchKV, if_pos hk]
    · by_cases hb : b = '='
      · subst hb
        cases h3 : t.dropWhile (fun d => !(d == '\n')) with
        | nil =>
          left
          have htall := List.dropWhile_eq_nil_iff.mp h3
          constructor
          · simp only [matchKV, hdw, htw, if_neg hk]
            rw [if_pos (by simp)]
            have h4 : (t ++ u).dropWhile (fun d => !(d == '\n')) = [] := by
              rw [dropWhile_append_of_all htall]
              exact List.dropWhile_eq_nil_iff.mpr
                (fun d hd => by simpa using hu d hd)
            simp [h4]
          · simp only [matchKV, h1, if_neg hk]
            rw [if_pos (by simp)]
            simp [h3]
        | cons d r =>
          have hd : d = '\n' := by
            have := dropWhile_head_false (p := fun d => !(d == '\n')) h3
            simpa using this
          subst hd
          right
          obtain ⟨htw2, hdw2⟩ := takeWhile_append_stop h3 u
          refine ⟨⟨cs.takeWhile isWordChar⟩,
            ⟨t.takeWhile (fun d => !(d == '\n'))⟩, r, ?_, ?_⟩
          · simp only [matchKV, h1, if_neg hk]
            rw [if_pos (by simp)]
            simp [h3]
          · simp only [matchKV, hdw, htw, if_neg hk]
            rw [if_pos (by simp)]
            simp [htw2, hdw2]
      · left
        constructor
        · simp only [matchKV, hdw, htw, if_neg hk]
          rw [if_neg (by simp [hb])]
        · simp only [matchKV, h1, if_neg hk]
          rw [if_neg (by simp [hb])]

theorem findKV_of_no_newline :
    ∀ n (u : List Char), u.length ≤ n → (∀ c ∈ u, ¬ c = '\n') →
      findKV u = [] := by
  intro n
  induction n with
  | zero =>
    intro u hu _
    rw [List.eq_nil_of_length_eq_zero (Nat.le_zero.mp hu)]
    rfl
  | succ n ih =>
    intro u hlen hu
    cases u with
    | nil => rfl
    | cons c cs =>
      have hcs : cs.length ≤ n := by simp at hlen; omega
      have hucs : ∀ x ∈ cs, ¬ x = '\n' := fun x hx => hu x (by simp [hx])
      by_cases hc : c = '|'
      · subst hc
        have hnone : matchKV cs = none := by
          rcases matchKV_append hucs [] with ⟨h1, -⟩ | ⟨k, v, rest, h1, -⟩
          · simpa using h1
          · exact absurd h1 (by simp [matchKV_nil])
        rw [findKV_cons_bar_none hnone]
        exact ih cs hcs hucs
      · rw [findKV_cons_not_bar hc]
        exact ih cs hcs hucs

theorem findKV_append {u : List Char} (hu : ∀ c ∈ u, ¬ c = '\n') :
    ∀ n (s : List Char), s.length ≤ n → findKV (s ++ u) = findKV s := by
  intro n
  induction n with
  | zero =>
    intro s hs
    rw [List.eq_nil_of_length_eq_zero (Nat.le_zero.mp hs), List.nil_append,
      findKV_of_no_newline u.length u le_rfl hu]
    rfl
  | succ n ih =>
    intro s hs
    cases s with
    | nil =>
      rw [List.nil_append, findKV_of_no_newline u.length u le_rfl hu]
      rfl
    | cons c cs =>
      have hcs : cs.length ≤ n := by simp at hs; omega
      by_cases hc : c = '|'
      · subst hc
        rw [List.cons_append]
        rcases matchKV_append hu cs with ⟨h1, h2⟩ | ⟨k, v, rest, h1, h2⟩
        · rw [findKV_cons_bar_none h1, findKV_cons_bar_none h2]
          exact ih cs hcs
        · rw [findKV_cons_bar_some h2, findKV_cons_bar_some h1]
          have hrest : rest.length ≤ n :=
            le_trans (goodKV cs k v rest h1) hcs
          exact congrArg ((k, v) :: ·) (ih rest hrest)
      · rw [List.cons_append, findKV_cons_not_bar hc, findKV_cons_not_bar hc]
        exact ih cs hcs

/-! ### Claims -/

/-- C1, counterexample: with no persisted file and the single category page
"Legends:A", the reconciler rebuilds, but the rebuilt table's `name` set is
{"A"} and not the page-identifier set {"Legends:A"}: `text_to_dict` stores
the page name with "Legends:" removed, so the new table's identifier set is
not "exactly equal to the set of current page identifiers". -/
theorem c1_counterexample :
    fetch_card_data (ε := Unit) none (.ok ["Legends:A"]) (fun _ => .ok "") =
      .ok (.written [[("name", "A"), ("availability", "Core")]]) ∧
    (namesOfTable [[("name", "A"), ("availability", "Core")]]).toFinset ≠
      ({"Legends:A"} : Finset String) := by
  constructor
  · rfl
  · decide

/-- C1, amended: when the existing `name` set differs from the current page
identifiers, the category lists at least one page and every page fetch
succeeds, a full fetch-and-rebuild is performed and the set of `name` values
in the newly assembled table equals the set of current page identifiers with
every occurrence of "Legends:" removed (the image of the namespace-stripping
map), not the raw identifiers themselves. -/
theorem c1_rebuild_names {ε : Type} (existing : Option Table)
    (pages : List String) (pt : String → Except ε String)
    (hpages : pages ≠ [])
    (hne : card_names existing ≠ pages.toFinset)
    (hok : ∀ p ∈ pages, ∃ t, pt p = .ok t) :
    ∃ tbl, fetch_card_data existing (.ok pages) pt = .ok (.written tbl) ∧
      (namesOfTable tbl).toFinset = (pages.map strip_name).toFinset := by
  obtain ⟨tbl, htbl, hn⟩ := buildTable_ok pt pages hok
  refine ⟨tbl, ?_, by rw [hn]⟩
  simp [fetch_card_data, if_neg hne, htbl]

/-- C1, witness for the amended claim at a concrete input. -/
theorem c1_rebuild_names_witness :
    card_names none ≠ (["Legends:A"] : List String).toFinset ∧
    ∃ tbl, fetch_card_data (ε := Unit) none (.ok ["Legends:A"])
        (fun _ => .ok "") = .ok (.written tbl) ∧
      (namesOfTable tbl).toFinset =
        ((["Legends:A"] : List String).map strip_name).toFinset :=
  ⟨by decide, c1_rebuild_names none ["Legends:A"] (fun _ => .ok "")
    (by decide) (by decide) (fun p _ => ⟨"", rfl⟩)⟩

/-- C2: when the set of `name` values of the existing table equals the set of
current page identifiers, the run signals "unchanged" (nothing is written) and
its result does not depend on the page-text fetcher at all — no page text is
fetched. -/
theorem c2_short_circuit {ε : Type} (existing : Option Table)
    (pages : List String) (pt : String → Except ε String)
    (heq : card_names existing = pages.toFinset) :
    fetch_card_data existing (.ok pages) pt = .ok .unchanged ∧
    ∀ pt' : String → Except ε String,
      fetch_card_data existing (.ok pages) pt =
        fetch_card_data existing (.ok pages) pt' := by
  constructor
  · simp [fetch_card_data, if_pos heq]
  · intro pt'
    simp [fetch_card_data, if_pos heq]

/-- C2, witness: a table already naming "A" against the single page "A", with
a page-text stub that always fails — the run still returns "unchanged", so the
stub was never consulted. -/
theorem c2_short_circuit_witness :
    card_names (some [[("name", "A")]]) = (["A"] : List String).toFinset ∧
    fetch_card_data (ε := Unit) (some [[("name", "A")]]) (.ok ["A"])
      (fun _ => .error ()) = .ok .unchanged :=
  ⟨by decide, (c2_short_circuit (some [[("name", "A")]]) ["A"]
    (fun _ => .error ()) (by decide)).1⟩

/-- C3, counterexample: `replace("Legends:", "")` removes every occurrence,
not a leading prefix: the identifier "aLegends:b" has no leading namespace
prefix, yet its record's name is "ab", not the unchanged identifier. -/
theorem c3_counterexample :
    dget? (text_to_dict "aLegends:b" "") "name" = some "ab" ∧
    ("ab" : String) ≠ "aLegends:b" :=
  ⟨rfl, by decide⟩

/-- C3, amended: for every page identifier, the record's `name` equals the
identifier with every occurrence of "Legends:" removed (left-to-right,
non-overlapping); in particular "Legends:Shackled" yields "Shackled". -/
theorem c3_name_strips_all (p t : String) :
    dget? (text_to_dict p t) "name" = some (strip_name p) :=
  name_text_to_dict p t

/-- C4, counterexample: with no persisted dataset file the computed set of
existing names is the singleton of the empty string (polars' default series),
which is not the empty set. -/
theorem c4_counterexample :
    card_names none ≠ (∅ : Finset String) := by
  decide

/-- C4, amended: with no persisted dataset file, the reconciler's computed
set of existing `name` values is `{""}` — the default series
`pl.Series("name", [""])` contributes the empty string — rather than the
empty set. -/
theorem c4_empty_table_names : card_names none = {""} := rfl

/-- C5, counterexample: on the spec's composite input the tilde, template and
ellipsis rules behave as claimed, but the repeated word "Creature" is NOT
collapsed to one occurrence: the ellipsis rule's trailing `\s*` consumes the
two spaces before "CreatureCreature", gluing it to "damage", so no word
boundary remains for rule 7; rule 8 then inserts a space, leaving two
occurrences of "Creature". -/
theorem c5_counterexample :
    clean_ability_text
        "\x7b\x7bLG Attribute Icon|Fire\x7d\x7d~ damage...  CreatureCreature" =
      "Fire damage Creature Creature" ∧
    countOcc "Creature".data
      (clean_ability_text
        "\x7b\x7bLG Attribute Icon|Fire\x7d\x7d~ damage...  CreatureCreature").data
      = 2 ∧ (2 : Nat) ≠ 1 := by
  refine ⟨by decide, by decide, by decide⟩

/-- C5, amended: cleaning `"{{LG Attribute Icon|Fire}}~ damage...  CreatureCreature"`
yields `"Fire damage Creature Creature"`: tilde removed, template unwrapped to
"Fire", the ellipsis and its trailing whitespace collapsed away, and the
immediately-repeated word left uncollapsed (two occurrences of "Creature",
separated by the space rule 8 inserts). -/
theorem c5_cleaner_output :
    clean_ability_text
        "\x7b\x7bLG Attribute Icon|Fire\x7d\x7d~ damage...  CreatureCreature" =
      "Fire damage Creature Creature" := by
  decide

/-- C6, counterexample: the ellipsis rule does not replace "one or more
whitespace-separated periods": the input ". ." (two whitespace-separated
periods) is such a pattern, yet the rule leaves it unchanged rather than
yielding the empty string — the regex requires exactly three periods. -/
theorem c6_counterexample :
    removeEllipsis (". .".data) = (". .".data) ∧
    (". .".data : List Char) ≠ [] := by
  refine ⟨by decide, by decide⟩

/-- C6, amended: the ellipsis rule replaces every occurrence of the pattern
"exactly three periods, each followed by an optional whitespace run (the run
after the third period included)" with the empty string, applying everywhere
in the string and touching nothing else: a period-free segment is copied
verbatim, and after each replaced occurrence the scan continues on the rest
of the string. -/
theorem c6_ellipsis_rule :
    (∀ s : List Char, '.' ∉ s → removeEllipsis s = s) ∧
    (∀ s w1 w2 t : List Char, '.' ∉ s →
      (∀ c ∈ w1, isSpc c = true) → (∀ c ∈ w2, isSpc c = true) →
      removeEllipsis (s ++ ('.' :: (w1 ++ ('.' :: (w2 ++ ('.' :: t)))))) =
        s ++ removeEllipsis (t.dropWhile isSpc)) := by
  constructor
  · intro s hs
    have h := removeEllipsis_prefix_skip s [] hs
    simpa [show removeEllipsis [] = [] from rfl] using h
  · intro s w1 w2 t hs h1 h2
    rw [removeEllipsis_prefix_skip s _ hs, removeEllipsis_match w1 w2 t h1 h2]

/-- C6, witness for the amended claim at concrete inputs. -/
theorem c6_ellipsis_rule_witness :
    removeEllipsis ("xy".data) = "xy".data ∧
    removeEllipsis ("ab".data ++ ('.' :: ([' '] ++ ('.' :: ([] ++
        ('.' :: " cd".data)))))) =
      "ab".data ++ removeEllipsis (" cd".data.dropWhile isSpc) :=
  ⟨c6_ellipsis_rule.1 ("xy".data) (by decide),
   c6_ellipsis_rule.2 ("ab".data) [' '] [] (" cd".data) (by decide)
     (by decide) (by decide)⟩

/-- C7: the record's `availability` equals "Core" when the scanned attribute
mapping has no `availability` entry or its (HTML-stripped) value is the empty
string, and equals the scanned value unchanged otherwise. -/
theorem c7_availability_default (p t : String) :
    dget? (text_to_dict p t) "availability" =
      some (match dget? (dictOf (rawPairs t)) "availability" with
        | none => "Core"
        | some v => if v = "" then "Core" else v) :=
  avail_text_to_dict p t

/-- C8: the attribute mapping built from the scanned `|key=value` pairs (in
document order, values HTML-stripped) holds, at every key, the value of the
key's last occurrence in document order. -/
theorem c8_last_occurrence_wins (t k : String) :
    dget? (dictOf (rawPairs t)) k =
      (((rawPairs t).filter (fun p => p.1 == k)).getLast?).map
        (fun p => p.2) :=
  dget?_dictOf_last (rawPairs t) k

/-- C9: a failing page enumeration propagates its error, and when the name
sets differ and some page fetch fails, the run returns that failure and no
table is ever written. -/
theorem c9_failure_propagates {ε : Type} (existing : Option Table)
    (pt : String → Except ε String) :
    (∀ e : ε, fetch_card_data existing (.error e) pt = .error e) ∧
    (∀ pages : List String, card_names existing ≠ pages.toFinset →
      (∃ p ∈ pages, ∃ e, pt p = .error e) →
      ∃ e, fetch_card_data existing (.ok pages) pt = .error e ∧
        ∀ tbl, fetch_card_data existing (.ok pages) pt ≠
          .ok (.written tbl)) := by
  constructor
  · intro e
    rfl
  · intro pages hne hfail
    obtain ⟨e, hb⟩ := buildTable_error pt pages hfail
    refine ⟨e, ?_, ?_⟩
    · simp [fetch_card_data, if_neg hne, hb]
    · intro tbl
      simp [fetch_card_data, if_neg hne, hb]

/-- C9, witness at concrete inputs: a failed enumeration, and a failed fetch
during a rebuild. -/
theorem c9_failure_propagates_witness :
    fetch_card_data (ε := Unit) none (.error ()) (fun _ => .error ()) =
      .error () ∧
    ∃ e, fetch_card_data (ε := Unit) none (.ok ["A"]) (fun _ => .error ()) =
        .error e ∧
      ∀ tbl, fetch_card_data (ε := Unit) none (.ok ["A"])
        (fun _ => .error ()) ≠ .ok (.written tbl) :=
  ⟨(c9_failure_propagates none (fun _ => .error ())).1 (),
   (c9_failure_propagates none (fun _ => .error ())).2 ["A"] (by decide)
     ⟨"A", by simp, (), rfl⟩⟩

/-- C10: text after the last newline contributes nothing to the attribute
scan — in particular a final `|key=value` line not terminated by a newline is
not extracted, because the pattern itself must consume a newline. -/
theorem c10_unterminated_line_ignored (s u : String)
    (hu : ∀ c ∈ u.data, ¬ c = '\n') :
    rawPairs (s ++ u) = rawPairs s := by
  unfold rawPairs
  rw [String.data_append, findKV_append hu s.data.length s.data le_rfl]

/-- C10, witness: appending the unterminated line "|c=d" to "|a=b\n" does not
change the scanned pairs. -/
theorem c10_unterminated_line_ignored_witness :
    (∀ c ∈ ("|c=d" : String).data, ¬ c = '\n') ∧
    rawPairs ("|a=b\n" ++ "|c=d") = rawPairs "|a=b\n" :=
  ⟨by decide, c10_unterminated_line_ignored "|a=b\n" "|c=d" (by decide)⟩
